import Mathlib

/-!
A shallow embedding of the Apify event-setup scheduler actor (`src/main.py`).

Modelling conventions:
* Python floats are modelled as `ℚ` (all arithmetic in the program is sums of
  input numbers, which the embedding performs exactly).
* A pandas cell that may be `NaN`/missing is modelled as an `Option String`
  (`none` = `pd.isna` holds); a cell the code passes through `str(...)` is a
  plain `String`.
* `pd.to_numeric(..., errors="coerce")` output is modelled as an `Option ℚ`
  (`none` = the coercion produced `NaN`); `.fillna(0.0)` is `coerceHours`.
* `random.shuffle` is the Fisher–Yates loop of CPython's `random.shuffle`
  (`for i in reversed(range(1, len(x))): j = randbelow(i+1); swap x[i] x[j]`),
  with the stream of random draws supplied as an explicit parameter
  `r : Nat → Nat` (the draw for index `i` is `r i % (i+1)`).
* `list.sort(key=...)` is a stable ascending sort; it is modelled with a
  stable insertion sort (`sortByHours`).
* `str.strip()` / `str.lower()` are modelled by `pyStrip` / `pyLower`
  (ASCII, which covers every string the claims touch).
* `datetime.strptime` is modelled directive-by-directive with the regexes that
  CPython's `_strptime` compiles for `%I %H %M %S %f %p` (including regex
  backtracking and the whole-string match requirement); `datetime.fromisoformat`
  is modelled on its documented core grammar `YYYY-MM-DD[<sep>HH[:MM[:SS[.f]]]]`
  (timezone offsets are not modelled; no claim depends on them).
-/

/-- The whitespace set of Python's `str.strip()` and of the regex `\s`
(ASCII part). -/
def Char.isPySpace (c : Char) : Bool :=
  c == ' ' || c == '\t' || c == '\n' || c == '\r' || c == '\x0b' || c == '\x0c'

/-- Python `str.strip()`: drop leading and trailing whitespace. -/
def String.pyStrip (s : String) : String :=
  String.mk (((s.data.dropWhile Char.isPySpace).reverse.dropWhile
    Char.isPySpace).reverse)

/-- Python `str.lower()` (ASCII). -/
def String.pyLower (s : String) : String :=
  String.mk (s.data.map Char.toLower)

namespace Sched

/-- Python `str.capitalize()`: first character uppercased, the rest lowercased
(ASCII, which covers every string the claims touch). -/
def pyCapitalize (s : String) : String :=
  match s.data with
  | [] => ""
  | c :: cs => String.mk (c.toUpper :: cs.map Char.toLower)

/-- `leadsWith n h` holds when the char list `n` starts the char list `h`. -/
def leadsWith : List Char → List Char → Bool
  | [], _ => true
  | _ :: _, [] => false
  | a :: as, b :: bs => a == b && leadsWith as bs

/-- `occursIn n h`: the char list `n` occurs contiguously inside `h`. -/
def occursIn (n : List Char) : List Char → Bool
  | [] => leadsWith n []
  | c :: t => leadsWith n (c :: t) || occursIn n t

/-- Python `needle in hay` on strings. -/
def containsSub (hay needle : String) : Bool := occursIn needle.data hay.data

/-! ### The time normalizer `parse_time` -/

/-- A canonical time of day, the result of `datetime.time()`. -/
structure PTime where
  hour : Nat
  minute : Nat
  second : Nat
  micro : Nat
deriving DecidableEq, Repr

/-- The `strptime` directives used by `parse_time`'s format list, plus literal
characters; a blank in a format is compiled by `_strptime` to the regex `\s+`
(`Dir.ws`). -/
inductive Dir where
  | dI | dH | dM | dS | dF | dP | ws
  | lit (c : Char)
deriving DecidableEq, Repr

/-- The fields accumulated while matching a format (CPython `_strptime`'s
`found` dictionary, restricted to the directives that occur in `parse_time`). -/
structure PParts where
  hour24 : Option Nat
  hour12 : Option Nat
  pm : Option Bool
  minute : Nat
  second : Nat
  micro : Nat
deriving DecidableEq, Repr

def initParts : PParts := ⟨none, none, none, 0, 0, 0⟩

def dv (c : Char) : Nat := c.toNat - 48

/-- Read exactly `k` leading digits, returning their value and the rest. -/
def takeDigits : Nat → List Char → Option (Nat × List Char)
  | 0, cs => some (0, cs)
  | k + 1, c :: cs =>
      if c.isDigit then
        match takeDigits k cs with
        | some (v, rest) => some (dv c * 10 ^ k + v, rest)
        | none => none
      else none
  | _ + 1, [] => none

/-- Match a directive list against the input characters, requiring the whole
input to be consumed (`strptime` raises on unconverted data).  Each two-digit
numeric directive tries its two-digit regex alternatives first and backtracks
to the one-digit alternative, exactly as the compiled regex
(`%I` = `(1[0-2]|0[1-9]|[1-9])`, `%H` = `(2[0-3]|[0-1]\d|\d)`,
`%M` = `([0-5]\d|\d)`, `%S` = `(6[0-1]|[0-5]\d|\d)`, `%f` = `\d{1,6}` greedy,
`%p` = `(AM|PM)` case-insensitive). -/
def runDirs : List Dir → List Char → PParts → Option PParts
  | [], [], acc => some acc
  | [], _ :: _, _ => none
  | Dir.lit c :: ds, cs, acc =>
      match cs with
      | c0 :: rest => if c0 = c then runDirs ds rest acc else none
      | [] => none
  | Dir.ws :: ds, cs, acc =>
      match cs with
      | c0 :: rest =>
          if c0.isPySpace then runDirs ds (rest.dropWhile Char.isPySpace) acc
          else none
      | [] => none
  | Dir.dP :: ds, cs, acc =>
      match cs with
      | c1 :: c2 :: rest =>
          if (c1.toLower = 'a' || c1.toLower = 'p') && c2.toLower = 'm' then
            runDirs ds rest { acc with pm := some (c1.toLower = 'p') }
          else none
      | _ => none
  | Dir.dI :: ds, cs, acc =>
      (match cs with
       | c1 :: c2 :: rest =>
           if c1.isDigit && c2.isDigit && dv c1 ≤ 1 && 1 ≤ dv c1 * 10 + dv c2
               && dv c1 * 10 + dv c2 ≤ 12 then
             runDirs ds rest { acc with hour12 := some (dv c1 * 10 + dv c2) }
           else none
       | _ => none)
      <|>
      (match cs with
       | c1 :: rest =>
           if c1.isDigit && 1 ≤ dv c1 then
             runDirs ds rest { acc with hour12 := some (dv c1) }
           else none
       | [] => none)
  | Dir.dH :: ds, cs, acc =>
      (match cs with
       | c1 :: c2 :: rest =>
           if c1.isDigit && c2.isDigit && dv c1 * 10 + dv c2 ≤ 23 then
             runDirs ds rest { acc with hour24 := some (dv c1 * 10 + dv c2) }
           else none
       | _ => none)
      <|>
      (match cs with
       | c1 :: rest =>
           if c1.isDigit then runDirs ds rest { acc with hour24 := some (dv c1) }
           else none
       | [] => none)
  | Dir.dM :: ds, cs, acc =>
      (match cs with
       | c1 :: c2 :: rest =>
           if c1.isDigit && c2.isDigit && dv c1 ≤ 5 then
             runDirs ds rest { acc with minute := dv c1 * 10 + dv c2 }
           else none
       | _ => none)
      <|>
      (match cs with
       | c1 :: rest =>
           if c1.isDigit then runDirs ds rest { acc with minute := dv c1 }
           else none
       | [] => none)
  | Dir.dS :: ds, cs, acc =>
      (match cs with
       | c1 :: c2 :: rest =>
           if c1.isDigit && c2.isDigit && dv c1 ≤ 6 && dv c1 * 10 + dv c2 ≤ 61 then
             runDirs ds rest { acc with second := dv c1 * 10 + dv c2 }
           else none
       | _ => none)
      <|>
      (match cs with
       | c1 :: rest =>
           if c1.isDigit then runDirs ds rest { acc with second := dv c1 }
           else none
       | [] => none)
  | Dir.dF :: ds, cs, acc =>
      (match takeDigits 6 cs with
       | some (v, rest) => runDirs ds rest { acc with micro := v }
       | none => none)
      <|>
      (match takeDigits 5 cs with
       | some (v, rest) => runDirs ds rest { acc with micro := v * 10 }
       | none => none)
      <|>
      (match takeDigits 4 cs with
       | some (v, rest) => runDirs ds rest { acc with micro := v * 100 }
       | none => none)
      <|>
      (match takeDigits 3 cs with
       | some (v, rest) => runDirs ds rest { acc with micro := v * 1000 }
       | none => none)
      <|>
      (match takeDigits 2 cs with
       | some (v, rest) => runDirs ds rest { acc with micro := v * 10000 }
       | none => none)
      <|>
      (match takeDigits 1 cs with
       | some (v, rest) => runDirs ds rest { acc with micro := v * 100000 }
       | none => none)

/-- Turn the matched fields into a time of day, as `_strptime` does
(`%I` with `%p`: 12 AM ↦ 0, PM adds 12 except at 12 PM), then validate the
way the `datetime` constructor does: a leap second (`%S` matched 60 or 61)
raises `ValueError`, which `parse_time` swallows. -/
def partsToTime (p : PParts) : Option PTime :=
  let hour :=
    match p.hour24, p.hour12, p.pm with
    | some h, _, _ => h
    | none, some h, some true => if h = 12 then 12 else h + 12
    | none, some h, _ => if h = 12 then 0 else h
    | none, none, _ => 0
  if p.second ≤ 59 then some ⟨hour, p.minute, p.second, p.micro⟩ else none

/-- `datetime.strptime(s, fmt).time()` wrapped in `try/except`. -/
def strptimeTime (s : String) (fmt : List Dir) : Option PTime :=
  match runDirs fmt s.data initParts with
  | some p => partsToTime p
  | none => none

def fmtIMSp : List Dir := [Dir.dI, Dir.lit ':', Dir.dM, Dir.lit ':', Dir.dS, Dir.ws, Dir.dP]
def fmtIMp : List Dir := [Dir.dI, Dir.lit ':', Dir.dM, Dir.ws, Dir.dP]
def fmtIp : List Dir := [Dir.dI, Dir.ws, Dir.dP]
def fmtHMS : List Dir := [Dir.dH, Dir.lit ':', Dir.dM, Dir.lit ':', Dir.dS]
def fmtHM : List Dir := [Dir.dH, Dir.lit ':', Dir.dM]
def fmtHMSf : List Dir := [Dir.dH, Dir.lit ':', Dir.dM, Dir.lit ':', Dir.dS, Dir.lit '.', Dir.dF]

/-- The format list of `parse_time`, in source order:
`["%I:%M:%S %p", "%I:%M %p", "%I %p", "%H:%M:%S", "%H:%M", "%H:%M:%S.%f"]`. -/
def timeFormats : List (List Dir) := [fmtIMSp, fmtIMp, fmtIp, fmtHMS, fmtHM, fmtHMSf]

/-- The fractional part of an ISO time: 1–6 digits, right-padded to μs. -/
def isoFrac (cs : List Char) : Option Nat :=
  if cs ≠ [] ∧ cs.length ≤ 6 ∧ cs.all Char.isDigit then
    match takeDigits cs.length cs with
    | some (v, _) => some (v * 10 ^ (6 - cs.length))
    | none => none
  else none

/-- The time-of-day part of an ISO datetime: `HH[:MM[:SS[.ffffff]]]`. -/
def isoTimePart : List Char → Option PTime
  | h1 :: h2 :: rest =>
      if h1.isDigit && h2.isDigit && dv h1 * 10 + dv h2 ≤ 23 then
        let h := dv h1 * 10 + dv h2
        match rest with
        | [] => some ⟨h, 0, 0, 0⟩
        | ':' :: m1 :: m2 :: rest2 =>
            if m1.isDigit && m2.isDigit && dv m1 * 10 + dv m2 ≤ 59 then
              let m := dv m1 * 10 + dv m2
              match rest2 with
              | [] => some ⟨h, m, 0, 0⟩
              | ':' :: s1 :: s2 :: rest3 =>
                  if s1.isDigit && s2.isDigit && dv s1 * 10 + dv s2 ≤ 59 then
                    let sec := dv s1 * 10 + dv s2
                    match rest3 with
                    | [] => some ⟨h, m, sec, 0⟩
                    | '.' :: fr =>
                        match isoFrac fr with
                        | some us => some ⟨h, m, sec, us⟩
                        | none => none
                    | _ => none
                  else none
              | _ => none
            else none
        | _ => none
      else none
  | _ => none

/-- `datetime.fromisoformat(s).time()` on the documented core grammar
`YYYY-MM-DD[<one separator char>HH[:MM[:SS[.ffffff]]]]`. -/
def fromisoTime (s : String) : Option PTime :=
  match s.data with
  | y1 :: y2 :: y3 :: y4 :: s1 :: m1 :: m2 :: s2 :: d1 :: d2 :: rest =>
      if y1.isDigit && y2.isDigit && y3.isDigit && y4.isDigit
          && s1 = '-' && s2 = '-'
          && m1.isDigit && m2.isDigit && 1 ≤ dv m1 * 10 + dv m2 && dv m1 * 10 + dv m2 ≤ 12
          && d1.isDigit && d2.isDigit && 1 ≤ dv d1 * 10 + dv d2 && dv d1 * 10 + dv d2 ≤ 31 then
        match rest with
        | [] => some ⟨0, 0, 0, 0⟩
        | _ :: timeRest => isoTimePart timeRest
      else none
  | _ => none

/-- Try the formats in source order; the first success wins. -/
def tryFormats (s : String) : List (List Dir) → Option PTime
  | [] => none
  | f :: fs =>
      match strptimeTime s f with
      | some tm => some tm
      | none => tryFormats s fs

/-- `parse_time` from `src/main.py` lines 18–26.  The argument is `none` when
`pd.isna` holds of the raw cell; otherwise it is the `str(...)` of the cell. -/
def parse_time (t : Option String) : Option PTime :=
  match t with
  | none => none
  | some raw =>
      let s := raw.pyStrip
      if s = "" then none
      else
        match tryFormats s timeFormats with
        | some tm => some tm
        | none => fromisoTime s

/-! ### The scheduling engine (`main`, lines 64–132) -/

/-- The per-employee state kept in the `employees` dict:
`{"availability": ..., "assigned_hours": 0.0, "assignments": []}`. -/
structure EmpInfo where
  avail : List (String × String)
  hours : ℚ
  assigns : List (String × Option PTime × Option PTime)
deriving DecidableEq

/-- The seven weekday keys of `weekday_cols` (lines 73–81). -/
def weekdayNames : List String :=
  ["Monday", "Tuesday", "Wednesday", "Thursday", "Friday", "Saturday", "Sunday"]

/-- Availability-text classification (lines 88–92): lowercased trimmed text,
substring checks in the order midday / night / both, else unavailable. -/
def classifyAvail (raw : String) : String :=
  let val := raw.pyStrip.pyLower
  if containsSub val "midday" then "Midday"
  else if containsSub val "night" then "Night"
  else if containsSub val "both" then "Both"
  else ""

/-- One availability row, lines 86–92: a row is modelled as the function
sending a column name to the `str(...)` of its cell (`row.get(col, "")`). -/
def buildAvail (cell : String → String) : List (String × String) :=
  weekdayNames.map (fun wd => (wd, classifyAvail (cell (wd ++ " Availability"))))

/-- Dictionary lookup `d.get(k, "")` on an ordered association list. -/
def aGet (m : List (String × String)) (k : String) : String :=
  match m.find? (fun p => p.1 == k) with
  | some p => p.2
  | none => ""

/-- Python dict assignment `d[k] = v`: overwrite in place if the key exists
(keeping its position), else append. -/
def dictInsert (m : List (String × EmpInfo)) (k : String) (v : EmpInfo) :
    List (String × EmpInfo) :=
  match m with
  | [] => [(k, v)]
  | (k0, v0) :: t => if k0 = k then (k, v) :: t else (k0, v0) :: dictInsert t k v

/-- Building the `employees` dict (lines 83–93). -/
def buildEmployees (rows : List (String → String)) : List (String × EmpInfo) :=
  rows.foldl
    (fun m row => dictInsert m (row "Name").pyStrip ⟨buildAvail row, 0, []⟩) []

/-- `SHIFT_RULES` (lines 13–16). -/
def SHIFT_RULES : List (String × Nat × Nat) := [("Midday", 3, 5), ("Night", 8, 10)]

/-- `SHIFT_RULES.get(shift_type, {"min": 0, "max": 0})` (line 104);
first component is `min`, second is `max`. -/
def rulesFor (stype : String) : Nat × Nat :=
  match SHIFT_RULES.find? (fun p => p.1 == stype) with
  | some p => p.2
  | none => (0, 0)

/-- `.fillna(0.0)` after `pd.to_numeric(..., errors="coerce")` (line 69). -/
def coerceHours (o : Option ℚ) : ℚ := o.getD 0

/-- One row of the shifts table after the column preprocessing, in the order
the sorted frame presents them to the loop at line 97. -/
structure Shift where
  date : String
  weekday : String
  stypeCell : String
  startCell : Option String
  endCell : Option String
  hoursCell : Option ℚ
deriving DecidableEq

/-- One step of the stable insertion sort: place `x` after every element with
strictly smaller hours and before every element with equal or larger hours
(`x` comes from earlier in the original list than the already-inserted tail,
so this keeps the original order of equal-hour elements). -/
def insertByHours (x : String × ℚ) : List (String × ℚ) → List (String × ℚ)
  | [] => [x]
  | y :: t => if y.2 < x.2 then y :: insertByHours x t else x :: y :: t

/-- `candidates.sort(key=lambda x: x[1])` (line 109): stable ascending sort of
(name, assigned_hours) pairs by the hours component. -/
def sortByHours : List (String × ℚ) → List (String × ℚ)
  | [] => []
  | x :: t => insertByHours x (sortByHours t)

/-- Swap the entries at positions `i` and `j` (no-op when out of range). -/
def swapIdx (xs : List α) (i j : Nat) : List α :=
  match xs.get? i, xs.get? j with
  | some a, some b => (xs.set i b).set j a
  | _, _ => xs

/-- The Fisher–Yates loop of `random.shuffle`, from index `i` down to 1. -/
def fyAux (r : Nat → Nat) : Nat → List α → List α
  | 0, xs => xs
  | i + 1, xs => fyAux r i (swapIdx xs (i + 1) (r (i + 1) % (i + 2)))

/-- `random.shuffle(candidates)` (line 110), with the random draws supplied by
`r` (the draw used at index `i` is `r i % (i+1)`; every permutation is
realized by some `r`, as it is by some state of the Mersenne twister). -/
def shuffleWith (r : Nat → Nat) (xs : List α) : List α :=
  fyAux r (xs.length - 1) xs

/-- The availability test of the candidate comprehension (line 108):
`info["availability"].get(weekday, "") in ("Both", shift_type)`. -/
def availMatches (info : EmpInfo) (weekday stype : String) : Bool :=
  let av := aGet info.avail weekday
  av == "Both" || av == stype

/-- The candidate comprehension (lines 107–108). -/
def candidatesFor (emps : List (String × EmpInfo)) (weekday stype : String) :
    List (String × ℚ) :=
  (emps.filter (fun p => availMatches p.2 weekday stype)).map
    (fun p => (p.1, p.2.hours))

/-- Lines 107–110: the candidate list as the selection sees it — built from
the availability index, sorted ascending by assigned hours, then shuffled. -/
def prepCands (emps : List (String × EmpInfo)) (weekday stype : String)
    (r : Nat → Nat) : List (String × ℚ) :=
  shuffleWith r (sortByHours (candidatesFor emps weekday stype))

/-- Lines 115–116: the complement list `other`, sorted ascending by hours. -/
def otherSorted (emps : List (String × EmpInfo)) (chosen : List String) :
    List (String × ℚ) :=
  sortByHours ((emps.filter (fun p => !(chosen.contains p.1))).map
    (fun p => (p.1, p.2.hours)))

/-- Lines 107–119: build, sort and shuffle the candidate list, then select
`chosen` by either the shortage branch (lines 112–117) or the sufficiency
branch (line 119). -/
def selectChosen (emps : List (String × EmpInfo)) (weekday stype : String)
    (r : Nat → Nat) : List String :=
  let rules := rulesFor stype
  let cands := prepCands emps weekday stype r
  if cands.length < rules.1 then
    let chosen := cands.map Prod.fst
    let extrasNeeded := rules.1 - chosen.length
    chosen ++ ((otherSorted emps chosen).take extrasNeeded).map Prod.fst
  else
    (cands.take rules.2).map Prod.fst

/-- One output row appended to `assignments` (lines 124–132). -/
structure Record where
  date : String
  weekday : String
  stype : String
  startCell : Option String
  endCell : Option String
  emp : String
  hours : ℚ
deriving DecidableEq

/-- `employees[emp_name]["assigned_hours"] += hours` and the append to
`employees[emp_name]["assignments"]` (lines 122–123). -/
def bumpHours (emps : List (String × EmpInfo)) (n : String) (h : ℚ)
    (a : String × Option PTime × Option PTime) : List (String × EmpInfo) :=
  match emps with
  | [] => []
  | (k, info) :: t =>
      if k = n then
        (k, { info with hours := info.hours + h, assigns := info.assigns ++ [a] }) :: t
      else (k, info) :: bumpHours t n h a

/-- The employees dict together with the `assignments` output list. -/
structure EngineState where
  emps : List (String × EmpInfo)
  recs : List Record
deriving DecidableEq

/-- The body of the shift loop (lines 97–132) for one shift. -/
def stepShift (r : Nat → Nat) (st : EngineState) (sh : Shift) : EngineState :=
  let date := sh.date.pyStrip
  let weekday := sh.weekday.pyStrip
  let stype := pyCapitalize sh.stypeCell.pyStrip
  let startT := parse_time sh.startCell
  let endT := parse_time sh.endCell
  let hours := coerceHours sh.hoursCell
  let chosen := selectChosen st.emps weekday stype r
  chosen.foldl
    (fun acc n =>
      { emps := bumpHours acc.emps n hours (date, startT, endT),
        recs := acc.recs ++ [⟨date, weekday, stype, sh.startCell, sh.endCell, n, hours⟩] })
    st

/-- The shift loop; `rng k` supplies the random draws for the shuffle of the
`k`-th shift. -/
def runAux (rng : Nat → Nat → Nat) : Nat → EngineState → List Shift → EngineState
  | _, st, [] => st
  | k, st, sh :: rest => runAux rng (k + 1) (stepShift (rng k) st sh) rest

/-- The whole scheduling run: build the employees dict from the availability
rows, start with no assignments, and process the shifts in order. -/
def runEngine (rng : Nat → Nat → Nat) (rows : List (String → String))
    (shifts : List Shift) : EngineState :=
  runAux rng 0 ⟨buildEmployees rows, []⟩ shifts

/-- The assigned hours recorded for name `n` (0 when absent, matching that the
code only ever reads names present in the dict). -/
def hoursOf (emps : List (String × EmpInfo)) (n : String) : ℚ :=
  match emps.find? (fun p => p.1 == n) with
  | some p => p.2.hours
  | none => 0

/-- Sum of the `Hours` fields over the records naming employee `n`. -/
def sumHoursFor (n : String) (recs : List Record) : ℚ :=
  ((recs.filter (fun rc => rc.emp == n)).map Record.hours).sum

/-- The record the loop body appends for `sh` and employee `n` (lines 124–132). -/
def recOf (sh : Shift) (n : String) : Record :=
  ⟨sh.date.pyStrip, sh.weekday.pyStrip, pyCapitalize sh.stypeCell.pyStrip,
    sh.startCell, sh.endCell, n, coerceHours sh.hoursCell⟩

/-! ### Concrete inputs used by witnesses and counterexamples -/

/-- An availability row for an employee available "both" every weekday. -/
def rowAllBoth (nm : String) : String → String :=
  fun c => if c = "Name" then nm else "both"

def rowsSix : List (String → String) :=
  [rowAllBoth "A", rowAllBoth "B", rowAllBoth "C", rowAllBoth "D",
   rowAllBoth "E", rowAllBoth "F"]

def rowsOne : List (String → String) := [rowAllBoth "A"]

/-- An availability row with the same text in every weekday column. -/
def rowAv (nm av : String) : String → String :=
  fun c => if c = "Name" then nm else av

/-- Two midday-only and three night-only employees: a Midday shift has only
2 candidates, below its minimum of 3, while 5 employees exist in total. -/
def rowsMix : List (String → String) :=
  [rowAv "A" "midday", rowAv "B" "midday", rowAv "C" "night",
   rowAv "D" "night", rowAv "E" "night"]

/-- A 4-hour Monday Midday shift. -/
def shMid : Shift := ⟨"2025-01-06", "Monday", "Midday", some "10:00", some "14:00", some 4⟩

/-- A Monday Midday shift whose Hours cell parsed to the number -5. -/
def shNeg : Shift := ⟨"2025-01-06", "Monday", "Midday", none, none, some (-5)⟩

/-- A 2-hour shift of the unknown type "Overnight". -/
def shOver : Shift := ⟨"2025-01-07", "Tuesday", "Overnight", some "22:00", none, some 2⟩

/-- Random draws: identity for the shuffle of shift 0; for shift 1 the draw at
index 5 is 0 (so Fisher–Yates swaps positions 5 and 0) and identity below. -/
def rngC1 : Nat → Nat → Nat := fun k i => if k = 1 && i = 5 then 0 else i

/-- Draws that make every Fisher–Yates swap a no-op (`i % (i+1) = i`). -/
def idDraws : Nat → Nat := fun i => i

def idRng : Nat → Nat → Nat := fun _ i => i

/-- The engine state after processing one Midday shift over `rowsSix`:
A–E hold 4 assigned hours, F holds 0. -/
def stAfterOne : EngineState := runAux rngC1 0 ⟨buildEmployees rowsSix, []⟩ [shMid]

end Sched

namespace Sched

/-! ### Permutation lemmas for the stable sort and the Fisher–Yates shuffle -/

theorem cons_set_perm (x : α) (t : List α) (k : Nat) (hk : k < t.length) :
    (t.get ⟨k, hk⟩ :: t.set k x).Perm (x :: t) := by
  induction t generalizing k with
  | nil => simp at hk
  | cons y s ih =>
      cases k with
      | zero => simpa using List.Perm.swap x y s
      | succ m =>
          have hm : m < s.length := by simpa using hk
          have h1 : ((y :: s).get ⟨m + 1, hk⟩ :: (y :: s).set (m + 1) x)
              = s.get ⟨m, hm⟩ :: y :: s.set m x := by simp
          rw [h1]
          exact (List.Perm.swap y (s.get ⟨m, hm⟩) (s.set m x)).trans
            (((ih m hm).cons y).trans (List.Perm.swap x y s))

theorem set_set_swap_perm (xs : List α) (i j : Nat) (a b : α)
    (ha : xs.get? i = some a) (hb : xs.get? j = some b) :
    ((xs.set i b).set j a).Perm xs := by
  induction xs generalizing i j with
  | nil => simp at ha
  | cons c t ih =>
      cases i with
      | zero =>
          simp at ha
          cases j with
          | zero =>
              simp at hb
              subst ha; subst hb; simp
          | succ m =>
              subst ha
              have hb' : t.get? m = some b := by simpa using hb
              have hm : m < t.length := (List.get?_eq_some.mp hb').1
              have hbv : t.get ⟨m, hm⟩ = b := (List.get?_eq_some.mp hb').2
              have h1 : ((c :: t).set 0 b).set (m + 1) c = b :: t.set m c := by simp
              rw [h1, ← hbv]
              exact cons_set_perm c t m hm
      | succ l =>
          cases j with
          | zero =>
              simp at hb
              subst hb
              have ha' : t.get? l = some a := by simpa using ha
              have hl : l < t.length := (List.get?_eq_some.mp ha').1
              have hav : t.get ⟨l, hl⟩ = a := (List.get?_eq_some.mp ha').2
              have h1 : ((c :: t).set (l + 1) c).set 0 a = a :: t.set l c := by simp
              rw [h1, ← hav]
              exact cons_set_perm c t l hl
          | succ m =>
              have ha' : t.get? l = some a := by simpa using ha
              have hb' : t.get? m = some b := by simpa using hb
              have h1 : ((c :: t).set (l + 1) b).set (m + 1) a
                  = c :: ((t.set l b).set m a) := by simp
              rw [h1]
              exact (ih l m ha' hb').cons c

theorem swapIdx_perm (xs : List α) (i j : Nat) : (swapIdx xs i j).Perm xs := by
  unfold swapIdx
  cases ha : xs.get? i with
  | none => simp
  | some a =>
      cases hb : xs.get? j with
      | none => simp
      | some b => simpa using set_set_swap_perm xs i j a b ha hb

theorem fyAux_perm (r : Nat → Nat) : ∀ (n : Nat) (xs : List α), (fyAux r n xs).Perm xs
  | 0, _ => List.Perm.refl _
  | n + 1, xs =>
      (fyAux_perm r n (swapIdx xs (n + 1) (r (n + 1) % (n + 2)))).trans
        (swapIdx_perm xs (n + 1) (r (n + 1) % (n + 2)))

theorem shuffleWith_perm (r : Nat → Nat) (xs : List α) : (shuffleWith r xs).Perm xs :=
  fyAux_perm r (xs.length - 1) xs

theorem insertByHours_perm (x : String × ℚ) (l : List (String × ℚ)) :
    (insertByHours x l).Perm (x :: l) := by
  induction l with
  | nil => exact List.Perm.refl _
  | cons y t ih =>
      by_cases h : y.2 < x.2
      · simp only [insertByHours, if_pos h]
        exact (ih.cons y).trans (List.Perm.swap x y t)
      · simp only [insertByHours, if_neg h]
        exact List.Perm.refl _

theorem sortByHours_perm (l : List (String × ℚ)) : (sortByHours l).Perm l := by
  induction l with
  | nil => exact List.Perm.refl _
  | cons x t ih => exact (insertByHours_perm x (sortByHours t)).trans (ih.cons x)

theorem prepCands_perm (r : Nat → Nat) (l : List (String × ℚ)) :
    (shuffleWith r (sortByHours l)).Perm l :=
  (shuffleWith_perm r (sortByHours l)).trans (sortByHours_perm l)

theorem insertByHours_sorted (x : String × ℚ) (l : List (String × ℚ))
    (hl : l.Pairwise (fun a b => a.2 ≤ b.2)) :
    (insertByHours x l).Pairwise (fun a b => a.2 ≤ b.2) := by
  induction l with
  | nil => simp [insertByHours]
  | cons y t ih =>
      rcases List.pairwise_cons.mp hl with ⟨hy, ht⟩
      by_cases h : y.2 < x.2
      · simp only [insertByHours, if_pos h]
        refine List.pairwise_cons.mpr ⟨?_, ih ht⟩
        intro z hz
        rcases (insertByHours_perm x t).mem_iff.mp hz with hz2
        rcases List.mem_cons.mp hz2 with hz3 | hz3
        · exact hz3 ▸ le_of_lt h
        · exact hy z hz3
      · simp only [insertByHours, if_neg h]
        have hxy : x.2 ≤ y.2 := le_of_not_lt h
        refine List.pairwise_cons.mpr ⟨?_, hl⟩
        intro z hz
        rcases List.mem_cons.mp hz with hz2 | hz2
        · exact hz2 ▸ hxy
        · exact le_trans hxy (hy z hz2)

theorem sortByHours_sorted (l : List (String × ℚ)) :
    (sortByHours l).Pairwise (fun a b => a.2 ≤ b.2) := by
  induction l with
  | nil => simp [sortByHours]
  | cons x t ih => exact insertByHours_sorted x (sortByHours t) ih

/-! ### Facts about the staffing policy lookup -/

theorem rulesFor_unknown (s : String) (h1 : s ≠ "Midday") (h2 : s ≠ "Night") :
    rulesFor s = (0, 0) := by
  have b1 : (("Midday" : String) == s) = false := by
    simp only [beq_eq_false_iff_ne]
    exact fun e => h1 e.symm
  have b2 : (("Night" : String) == s) = false := by
    simp only [beq_eq_false_iff_ne]
    exact fun e => h2 e.symm
  simp [rulesFor, SHIFT_RULES, List.find?, b1, b2]

theorem rulesFor_min_le_max (s : String) : (rulesFor s).1 ≤ (rulesFor s).2 := by
  rcases eq_or_ne s "Midday" with h | h
  · subst h; decide
  · rcases eq_or_ne s "Night" with h2 | h2
    · subst h2; decide
    · rw [rulesFor_unknown s h h2]

theorem rulesFor_pos (s : String) (h : 0 < (rulesFor s).1) :
    s = "Midday" ∨ s = "Night" := by
  by_contra hc
  push_neg at hc
  rw [rulesFor_unknown s hc.1 hc.2] at h
  simp at h

/-! ### Names of candidates and of the complement set -/

theorem candidatesFor_names (emps : List (String × EmpInfo)) (wd st : String) :
    (candidatesFor emps wd st).map Prod.fst
      = (emps.filter (fun p => availMatches p.2 wd st)).map Prod.fst := by
  simp [candidatesFor, List.map_map, Function.comp]

theorem candNames_perm (emps : List (String × EmpInfo)) (wd st : String) (r : Nat → Nat) :
    ((prepCands emps wd st r).map Prod.fst).Perm
      ((emps.filter (fun p => availMatches p.2 wd st)).map Prod.fst) := by
  have h := (prepCands_perm r (candidatesFor emps wd st)).map Prod.fst
  rw [candidatesFor_names] at h
  exact h

theorem name_mem_filter_iff {emps : List (String × EmpInfo)} {p : String × EmpInfo → Bool}
    {e : String × EmpInfo} (hnd : (emps.map Prod.fst).Nodup) (he : e ∈ emps) :
    e.1 ∈ (emps.filter p).map Prod.fst ↔ p e = true := by
  constructor
  · intro h
    rcases List.mem_map.mp h with ⟨q, hq, hqe⟩
    have hq2 := List.mem_filter.mp hq
    have : q = e := List.inj_on_of_nodup_map hnd hq2.1 he hqe
    exact this ▸ hq2.2
  · intro h
    exact List.mem_map.mpr ⟨e, List.mem_filter.mpr ⟨he, h⟩, rfl⟩

theorem name_mem_cands_iff {emps : List (String × EmpInfo)} {wd st : String}
    {r : Nat → Nat} {e : String × EmpInfo} (hnd : (emps.map Prod.fst).Nodup)
    (he : e ∈ emps) :
    e.1 ∈ (prepCands emps wd st r).map Prod.fst
      ↔ availMatches e.2 wd st = true := by
  rw [(candNames_perm emps wd st r).mem_iff]
  exact name_mem_filter_iff hnd he

/-- The complement comprehension at line 115 keeps exactly the employees whose
availability test failed, once all candidates were taken as `chosen`. -/
theorem other_filter_eq (emps : List (String × EmpInfo)) (wd st : String)
    (r : Nat → Nat) (hnd : (emps.map Prod.fst).Nodup) :
    emps.filter
        (fun p => !(((prepCands emps wd st r).map
          Prod.fst).contains p.1))
      = emps.filter (fun p => !(availMatches p.2 wd st)) := by
  apply List.filter_congr
  intro e he
  have hc : ((prepCands emps wd st r).map
      Prod.fst).contains e.1 = availMatches e.2 wd st := by
    rw [Bool.eq_iff_iff, List.elem_iff]
    exact name_mem_cands_iff hnd he
  rw [hc]

/-! ### The two selection branches -/

theorem prepCands_len (emps : List (String × EmpInfo)) (wd st : String) (r : Nat → Nat) :
    (prepCands emps wd st r).length = (candidatesFor emps wd st).length :=
  (prepCands_perm r (candidatesFor emps wd st)).length_eq

theorem selectChosen_short (emps : List (String × EmpInfo)) (wd st : String)
    (r : Nat → Nat) (h : (prepCands emps wd st r).length < (rulesFor st).1) :
    selectChosen emps wd st r =
      (prepCands emps wd st r).map Prod.fst ++
        ((otherSorted emps ((prepCands emps wd st r).map Prod.fst)).take
          ((rulesFor st).1 - (prepCands emps wd st r).length)).map Prod.fst := by
  simp only [selectChosen]
  rw [if_pos h]
  simp [List.length_map]

theorem selectChosen_suff (emps : List (String × EmpInfo)) (wd st : String)
    (r : Nat → Nat) (h : ¬ (prepCands emps wd st r).length < (rulesFor st).1) :
    selectChosen emps wd st r = ((prepCands emps wd st r).take (rulesFor st).2).map Prod.fst := by
  simp only [selectChosen]
  rw [if_neg h]

/-! ### Structure of the candidate and complement lists -/

theorem filterNames_nodup (emps : List (String × EmpInfo)) (p : String × EmpInfo → Bool)
    (hnd : (emps.map Prod.fst).Nodup) : ((emps.filter p).map Prod.fst).Nodup :=
  ((List.filter_sublist emps).map Prod.fst).nodup hnd

theorem candNames_nodup (emps : List (String × EmpInfo)) (wd st : String) (r : Nat → Nat)
    (hnd : (emps.map Prod.fst).Nodup) :
    ((prepCands emps wd st r).map Prod.fst).Nodup :=
  ((candNames_perm emps wd st r).nodup_iff).mpr (filterNames_nodup emps _ hnd)

theorem otherNames_perm (emps : List (String × EmpInfo)) (chosen : List String) :
    ((otherSorted emps chosen).map Prod.fst).Perm
      ((emps.filter (fun p => !(chosen.contains p.1))).map Prod.fst) := by
  unfold otherSorted
  have h := (sortByHours_perm ((emps.filter (fun p => !(chosen.contains p.1))).map
    (fun p => (p.1, p.2.hours)))).map Prod.fst
  simpa [List.map_map, Function.comp] using h

theorem mem_otherNames (emps : List (String × EmpInfo)) (chosen : List String)
    (x : String) (hx : x ∈ (otherSorted emps chosen).map Prod.fst) : x ∉ chosen := by
  rw [(otherNames_perm emps chosen).mem_iff] at hx
  rcases List.mem_map.mp hx with ⟨e, he, rfl⟩
  have h2 := (List.mem_filter.mp he).2
  rw [Bool.not_eq_true'] at h2
  intro hmem
  have h3 : chosen.contains e.1 = true := List.elem_iff.mpr hmem
  rw [h3] at h2
  exact Bool.true_eq_false.mp h2

theorem mem_otherSorted_pair (emps : List (String × EmpInfo)) (chosen : List String)
    {q : String × ℚ} (hq : q ∈ otherSorted emps chosen) :
    ∃ e ∈ emps, (chosen.contains e.1) = false ∧ q = (e.1, e.2.hours) := by
  unfold otherSorted at hq
  rw [(sortByHours_perm _).mem_iff] at hq
  rcases List.mem_map.mp hq with ⟨e, he, rfl⟩
  have h2 := List.mem_filter.mp he
  exact ⟨e, h2.1, by simpa using h2.2, rfl⟩

theorem mem_prepCands_pair (emps : List (String × EmpInfo)) (wd st : String)
    (r : Nat → Nat) {q : String × ℚ} (hq : q ∈ prepCands emps wd st r) :
    ∃ e ∈ emps, availMatches e.2 wd st = true ∧ q = (e.1, e.2.hours) := by
  unfold prepCands at hq
  rw [(prepCands_perm r _).mem_iff] at hq
  rcases List.mem_map.mp hq with ⟨e, he, rfl⟩
  have h2 := List.mem_filter.mp he
  exact ⟨e, h2.1, h2.2, rfl⟩

theorem otherSorted_length (emps : List (String × EmpInfo)) (chosen : List String) :
    (otherSorted emps chosen).length
      = (emps.filter (fun p => !(chosen.contains p.1))).length := by
  unfold otherSorted
  rw [(sortByHours_perm _).length_eq, List.length_map]

theorem candidatesFor_length (emps : List (String × EmpInfo)) (wd st : String) :
    (candidatesFor emps wd st).length
      = (emps.filter (fun p => availMatches p.2 wd st)).length := by
  rw [candidatesFor, List.length_map]

/-- With distinct names, the complement list has exactly the employees that
are not candidates, so its length is the total minus the candidate count. -/
theorem otherSorted_length_compl (emps : List (String × EmpInfo)) (wd st : String)
    (r : Nat → Nat) (hnd : (emps.map Prod.fst).Nodup) :
    (otherSorted emps ((prepCands emps wd st r).map Prod.fst)).length
      = emps.length - (prepCands emps wd st r).length := by
  rw [otherSorted_length, other_filter_eq emps wd st r hnd, prepCands_len,
    candidatesFor_length]
  have h := List.length_eq_length_filter_add
    (l := emps) (fun p => availMatches p.2 wd st)
  omega

/-- Every selected name is the name of some employee. -/
theorem selectChosen_sub_names (emps : List (String × EmpInfo)) (wd st : String)
    (r : Nat → Nat) : ∀ x ∈ selectChosen emps wd st r, x ∈ emps.map Prod.fst := by
  intro x hx
  by_cases h : (prepCands emps wd st r).length < (rulesFor st).1
  · rw [selectChosen_short emps wd st r h] at hx
    rcases List.mem_append.mp hx with hx | hx
    · rcases List.mem_map.mp hx with ⟨q, hq, rfl⟩
      rcases mem_prepCands_pair emps wd st r hq with ⟨e, he, _, rfl⟩
      exact List.mem_map.mpr ⟨e, he, rfl⟩
    · rcases List.mem_map.mp hx with ⟨q, hq, rfl⟩
      have hq2 : q ∈ otherSorted emps ((prepCands emps wd st r).map Prod.fst) :=
        (List.take_sublist _ _).mem hq
      rcases mem_otherSorted_pair emps _ hq2 with ⟨e, he, _, rfl⟩
      exact List.mem_map.mpr ⟨e, he, rfl⟩
  · rw [selectChosen_suff emps wd st r h] at hx
    rcases List.mem_map.mp hx with ⟨q, hq, rfl⟩
    have hq2 : q ∈ prepCands emps wd st r := (List.take_sublist _ _).mem hq
    rcases mem_prepCands_pair emps wd st r hq2 with ⟨e, he, _, rfl⟩
    exact List.mem_map.mpr ⟨e, he, rfl⟩

/-- The selection never repeats an employee. -/
theorem selectChosen_nodup (emps : List (String × EmpInfo)) (wd st : String)
    (r : Nat → Nat) (hnd : (emps.map Prod.fst).Nodup) :
    (selectChosen emps wd st r).Nodup := by
  by_cases h : (prepCands emps wd st r).length < (rulesFor st).1
  · rw [selectChosen_short emps wd st r h]
    have hA : ((prepCands emps wd st r).map Prod.fst).Nodup :=
      candNames_nodup emps wd st r hnd
    have hS : ((otherSorted emps ((prepCands emps wd st r).map Prod.fst)).map
        Prod.fst).Nodup :=
      ((otherNames_perm emps _).nodup_iff).mpr (filterNames_nodup emps _ hnd)
    have hB : (((otherSorted emps ((prepCands emps wd st r).map Prod.fst)).take
        ((rulesFor st).1 - (prepCands emps wd st r).length)).map Prod.fst).Nodup :=
      ((List.take_sublist _ _).map Prod.fst).nodup hS
    refine hA.append hB ?_
    intro a haA haB
    rcases List.mem_map.mp haB with ⟨q, hq, rfl⟩
    have hq2 : q ∈ otherSorted emps ((prepCands emps wd st r).map Prod.fst) :=
      (List.take_sublist _ _).mem hq
    exact mem_otherNames emps _ q.1 (List.mem_map.mpr ⟨q, hq2, rfl⟩) haA
  · rw [selectChosen_suff emps wd st r h]
    exact ((List.take_sublist _ _).map Prod.fst).nodup (candNames_nodup emps wd st r hnd)

/-- The selection never exceeds `max` for the shift type. -/
theorem selectChosen_le_max (emps : List (String × EmpInfo)) (wd st : String)
    (r : Nat → Nat) : (selectChosen emps wd st r).length ≤ (rulesFor st).2 := by
  by_cases h : (prepCands emps wd st r).length < (rulesFor st).1
  · rw [selectChosen_short emps wd st r h]
    have hmm := rulesFor_min_le_max st
    have h1 : (((otherSorted emps ((prepCands emps wd st r).map Prod.fst)).take
        ((rulesFor st).1 - (prepCands emps wd st r).length)).map Prod.fst).length
        ≤ (rulesFor st).1 - (prepCands emps wd st r).length := by
      rw [List.length_map, List.length_take]
      omega
    rw [List.length_append, List.length_map]
    omega
  · rw [selectChosen_suff emps wd st r h, List.length_map, List.length_take]
    omega

/-- The selection never exceeds the number of employees. -/
theorem selectChosen_le_total (emps : List (String × EmpInfo)) (wd st : String)
    (r : Nat → Nat) (hnd : (emps.map Prod.fst).Nodup) :
    (selectChosen emps wd st r).length ≤ emps.length := by
  by_cases h : (prepCands emps wd st r).length < (rulesFor st).1
  · rw [selectChosen_short emps wd st r h, List.length_append, List.length_map,
      List.length_map, List.length_take, otherSorted_length_compl emps wd st r hnd]
    have h2 : (prepCands emps wd st r).length ≤ emps.length := by
      rw [prepCands_len, candidatesFor_length]
      exact (List.filter_sublist emps).length_le
    omega
  · rw [selectChosen_suff emps wd st r h, List.length_map, List.length_take]
    have h2 : (prepCands emps wd st r).length ≤ emps.length := by
      rw [prepCands_len, candidatesFor_length]
      exact (List.filter_sublist emps).length_le
    omega

/-- Under shortage with enough employees overall, exactly `min` are selected. -/
theorem selectChosen_len_shortage (emps : List (String × EmpInfo)) (wd st : String)
    (r : Nat → Nat) (hnd : (emps.map Prod.fst).Nodup)
    (h : (prepCands emps wd st r).length < (rulesFor st).1)
    (htot : (rulesFor st).1 ≤ emps.length) :
    (selectChosen emps wd st r).length = (rulesFor st).1 := by
  rw [selectChosen_short emps wd st r h, List.length_append, List.length_map,
    List.length_map, List.length_take, otherSorted_length_compl emps wd st r hnd]
  omega

/-! ### The loop body: records appended and hours bookkeeping -/

theorem hoursOf_cons (k : String) (i : EmpInfo) (t : List (String × EmpInfo)) (m : String) :
    hoursOf ((k, i) :: t) m = if k == m then i.hours else hoursOf t m := by
  by_cases h : (k == m)
  · simp [hoursOf, List.find?_cons, h]
  · simp [hoursOf, List.find?_cons, h]

theorem bumpHours_names (emps : List (String × EmpInfo)) (n : String) (h : ℚ)
    (a : String × Option PTime × Option PTime) :
    (bumpHours emps n h a).map Prod.fst = emps.map Prod.fst := by
  induction emps with
  | nil => rfl
  | cons e t ih =>
      obtain ⟨k, info⟩ := e
      by_cases hk : k = n
      · simp [bumpHours, hk]
      · simp [bumpHours, hk, ih]

theorem hoursOf_bump (emps : List (String × EmpInfo)) (n m : String) (h : ℚ)
    (a : String × Option PTime × Option PTime) (hn : n ∈ emps.map Prod.fst) :
    hoursOf (bumpHours emps n h a) m = hoursOf emps m + (if m = n then h else 0) := by
  induction emps with
  | nil => simp at hn
  | cons e t ih =>
      obtain ⟨k, info⟩ := e
      by_cases hk : k = n
      · subst hk
        by_cases hkm : (k == m)
        · have hm : m = k := (beq_iff_eq.mp hkm).symm
          simp [bumpHours, hoursOf_cons, hkm, hm]
        · have hm : ¬ m = k := fun e => hkm (beq_iff_eq.mpr e.symm)
          simp [bumpHours, hoursOf_cons, hkm, hm]
      · have hn2 : n ∈ t.map Prod.fst := by
          rcases List.mem_cons.mp hn with h1 | h1
          · exact absurd h1.symm hk
          · exact h1
        by_cases hkm : (k == m)
        · have hm : m = k := (beq_iff_eq.mp hkm).symm
          have hmn : ¬ m = n := fun e => hk (hm.symm.trans e)
          simp [bumpHours, hk, hoursOf_cons, hkm, hmn]
        · simp [bumpHours, hk, hoursOf_cons, hkm, ih hn2]

theorem hoursOf_bump_le (emps : List (String × EmpInfo)) (n m : String) (h : ℚ)
    (a : String × Option PTime × Option PTime) (hpos : 0 ≤ h) :
    hoursOf emps m ≤ hoursOf (bumpHours emps n h a) m := by
  induction emps with
  | nil => simp [bumpHours]
  | cons e t ih =>
      obtain ⟨k, info⟩ := e
      by_cases hk : k = n
      · subst hk
        simp only [bumpHours, eq_self_iff_true, if_true]
        rw [hoursOf_cons, hoursOf_cons]
        by_cases hkm : (k == m)
        · simp only [if_pos hkm]
          linarith
        · simp only [if_neg hkm]
          exact le_refl _
      · simp only [bumpHours, if_neg hk]
        rw [hoursOf_cons, hoursOf_cons]
        by_cases hkm : (k == m)
        · simp only [if_pos hkm]
          exact le_refl _
        · simp only [if_neg hkm]
          exact ih

theorem sumHoursFor_cons (m : String) (rc : Record) (l : List Record) :
    sumHoursFor m (rc :: l)
      = (if rc.emp == m then rc.hours else 0) + sumHoursFor m l := by
  by_cases h : (rc.emp == m)
  · simp [sumHoursFor, List.filter_cons, h]
  · simp [sumHoursFor, List.filter_cons, h]

theorem sumHoursFor_append (m : String) (l1 l2 : List Record) :
    sumHoursFor m (l1 ++ l2) = sumHoursFor m l1 + sumHoursFor m l2 := by
  simp [sumHoursFor, List.filter_append]

/-- The chosen-loop (lines 121–132) splits into its effect on the employees
dict and the block of records it appends. -/
theorem foldl_step_split (h : ℚ) (a : String × Option PTime × Option PTime)
    (rc : String → Record) :
    ∀ (chosen : List String) (st : EngineState),
      chosen.foldl (fun acc n => ⟨bumpHours acc.emps n h a, acc.recs ++ [rc n]⟩) st
        = ⟨chosen.foldl (fun e n => bumpHours e n h a) st.emps,
           st.recs ++ chosen.map rc⟩ := by
  intro chosen
  induction chosen with
  | nil => intro st; simp
  | cons c t ih =>
      intro st
      rw [List.foldl_cons, ih]
      simp

theorem stepShift_eq (r : Nat → Nat) (st : EngineState) (sh : Shift) :
    stepShift r st sh =
      ⟨(selectChosen st.emps sh.weekday.pyStrip (pyCapitalize sh.stypeCell.pyStrip) r).foldl
          (fun e n => bumpHours e n (coerceHours sh.hoursCell)
            (sh.date.pyStrip, parse_time sh.startCell, parse_time sh.endCell)) st.emps,
        st.recs ++ (selectChosen st.emps sh.weekday.pyStrip
          (pyCapitalize sh.stypeCell.pyStrip) r).map (recOf sh)⟩ :=
  foldl_step_split (coerceHours sh.hoursCell)
    (sh.date.pyStrip, parse_time sh.startCell, parse_time sh.endCell) (recOf sh) _ st

theorem foldBump_names (h : ℚ) (a : String × Option PTime × Option PTime) :
    ∀ (chosen : List String) (emps : List (String × EmpInfo)),
      ((chosen.foldl (fun e n => bumpHours e n h a) emps).map Prod.fst)
        = emps.map Prod.fst := by
  intro chosen
  induction chosen with
  | nil => intro emps; rfl
  | cons c t ih => intro emps; rw [List.foldl_cons, ih, bumpHours_names]

theorem stepShift_names (r : Nat → Nat) (st : EngineState) (sh : Shift) :
    (stepShift r st sh).emps.map Prod.fst = st.emps.map Prod.fst := by
  rw [stepShift_eq]
  exact foldBump_names _ _ _ st.emps

theorem hoursOf_foldBump_sum (h : ℚ) (a : String × Option PTime × Option PTime)
    (rc : String → Record) (hemp : ∀ n, (rc n).emp = n) (hh : ∀ n, (rc n).hours = h) :
    ∀ (chosen : List String) (emps : List (String × EmpInfo)),
      (∀ c ∈ chosen, c ∈ emps.map Prod.fst) → ∀ m,
      hoursOf (chosen.foldl (fun e n => bumpHours e n h a) emps) m
        = hoursOf emps m + sumHoursFor m (chosen.map rc) := by
  intro chosen
  induction chosen with
  | nil => intro emps _ m; simp [sumHoursFor]
  | cons c t ih =>
      intro emps hsub m
      have hsub2 : ∀ x ∈ t, x ∈ (bumpHours emps c h a).map Prod.fst := by
        intro x hx
        rw [bumpHours_names]
        exact hsub x (List.mem_cons_of_mem c hx)
      rw [List.foldl_cons, ih (bumpHours emps c h a) hsub2 m,
        hoursOf_bump emps c m h a (hsub c (List.mem_cons_self c t)),
        List.map_cons, sumHoursFor_cons, hemp, hh]
      have : (if m = c then h else 0) = (if (c == m) then h else 0) := by
        by_cases hmc : m = c
        · simp [hmc]
        · have : ¬ (c == m) = true := fun e => hmc (beq_iff_eq.mp e).symm
          simp [hmc, this]
      rw [this]
      ring

theorem stepShift_hours (r : Nat → Nat) (st : EngineState) (sh : Shift) (m : String) :
    hoursOf (stepShift r st sh).emps m
      = hoursOf st.emps m
        + sumHoursFor m ((selectChosen st.emps sh.weekday.pyStrip
            (pyCapitalize sh.stypeCell.pyStrip) r).map (recOf sh)) := by
  rw [stepShift_eq]
  exact hoursOf_foldBump_sum (coerceHours sh.hoursCell) _ (recOf sh)
    (fun n => rfl) (fun n => rfl) _ st.emps
    (selectChosen_sub_names st.emps _ _ r) m

theorem stepShift_hours_le (r : Nat → Nat) (st : EngineState) (sh : Shift) (m : String)
    (hpos : 0 ≤ coerceHours sh.hoursCell) :
    hoursOf st.emps m ≤ hoursOf (stepShift r st sh).emps m := by
  rw [stepShift_eq]
  generalize selectChosen st.emps sh.weekday.pyStrip (pyCapitalize sh.stypeCell.pyStrip) r = chosen
  induction chosen generalizing st with
  | nil => exact le_refl _
  | cons c t ih =>
      rw [List.foldl_cons]
      calc hoursOf st.emps m
          ≤ hoursOf (bumpHours st.emps c (coerceHours sh.hoursCell)
              (sh.date.pyStrip, parse_time sh.startCell, parse_time sh.endCell)) m :=
            hoursOf_bump_le _ _ _ _ _ hpos
        _ ≤ _ := by
            exact ih ⟨bumpHours st.emps c (coerceHours sh.hoursCell)
              (sh.date.pyStrip, parse_time sh.startCell, parse_time sh.endCell), st.recs⟩

/-! ### The whole run -/

theorem stepShift_recs (r : Nat → Nat) (st : EngineState) (sh : Shift) :
    (stepShift r st sh).recs
      = st.recs ++ (selectChosen st.emps sh.weekday.pyStrip
          (pyCapitalize sh.stypeCell.pyStrip) r).map (recOf sh) := by
  rw [stepShift_eq]

theorem runAux_step (rng : Nat → Nat → Nat) (k : Nat) (st : EngineState)
    (sh : Shift) (rest : List Shift) :
    runAux rng k st (sh :: rest) = runAux rng (k + 1) (stepShift (rng k) st sh) rest := rfl

theorem runAux_names (rng : Nat → Nat → Nat) :
    ∀ (shifts : List Shift) (k : Nat) (st : EngineState),
      (runAux rng k st shifts).emps.map Prod.fst = st.emps.map Prod.fst := by
  intro shifts
  induction shifts with
  | nil => intro k st; rfl
  | cons sh t ih => intro k st; rw [runAux_step, ih, stepShift_names]

theorem runAux_hours (rng : Nat → Nat → Nat) :
    ∀ (shifts : List Shift) (k : Nat) (st : EngineState) (m : String),
      hoursOf (runAux rng k st shifts).emps m + sumHoursFor m st.recs
        = hoursOf st.emps m + sumHoursFor m (runAux rng k st shifts).recs := by
  intro shifts
  induction shifts with
  | nil => intro k st m; rfl
  | cons sh t ih =>
      intro k st m
      rw [runAux_step]
      have h1 := ih (k + 1) (stepShift (rng k) st sh) m
      rw [stepShift_recs, sumHoursFor_append, stepShift_hours] at h1
      linarith [h1]

/-! ### Building the employees dict -/

theorem mem_names_dictInsert (m : List (String × EmpInfo)) (k : String) (v : EmpInfo)
    (x : String) :
    x ∈ (dictInsert m k v).map Prod.fst ↔ x ∈ m.map Prod.fst ∨ x = k := by
  induction m with
  | nil => simp [dictInsert]
  | cons e t ih =>
      obtain ⟨k0, v0⟩ := e
      by_cases h : k0 = k
      · subst h
        simp [dictInsert]
        tauto
      · simp [dictInsert, h, ih]
        tauto

theorem dictInsert_names_nodup (m : List (String × EmpInfo)) (k : String) (v : EmpInfo)
    (hnd : (m.map Prod.fst).Nodup) : ((dictInsert m k v).map Prod.fst).Nodup := by
  induction m with
  | nil => simp [dictInsert]
  | cons e t ih =>
      obtain ⟨k0, v0⟩ := e
      rw [List.map_cons] at hnd
      rcases List.nodup_cons.mp hnd with ⟨h1, h2⟩
      by_cases h : k0 = k
      · subst h
        simp only [dictInsert, eq_self_iff_true, if_true, List.map_cons]
        exact List.nodup_cons.mpr ⟨h1, h2⟩
      · simp only [dictInsert, if_neg h, List.map_cons]
        refine List.nodup_cons.mpr ⟨?_, ih h2⟩
        rw [mem_names_dictInsert]
        rintro (hc | hc)
        · exact h1 hc
        · exact h hc

theorem mem_dictInsert (m : List (String × EmpInfo)) (k : String) (v : EmpInfo)
    (q : String × EmpInfo) (hq : q ∈ dictInsert m k v) : q ∈ m ∨ q = (k, v) := by
  induction m with
  | nil =>
      simp [dictInsert] at hq
      right
      exact hq
  | cons e t ih =>
      obtain ⟨k0, v0⟩ := e
      by_cases h : k0 = k
      · subst h
        simp only [dictInsert, eq_self_iff_true, if_true] at hq
        rcases List.mem_cons.mp hq with hq | hq
        · right; exact hq
        · left; exact List.mem_cons_of_mem _ hq
      · simp only [dictInsert, if_neg h] at hq
        rcases List.mem_cons.mp hq with hq | hq
        · left; exact hq ▸ List.mem_cons_self _ _
        · rcases ih hq with h2 | h2
          · left; exact List.mem_cons_of_mem _ h2
          · right; exact h2

theorem build_go_nodup (rows : List (String → String)) :
    ∀ (m : List (String × EmpInfo)), (m.map Prod.fst).Nodup →
      ((rows.foldl (fun acc row =>
          dictInsert acc ((row "Name").pyStrip) ⟨buildAvail row, 0, []⟩) m).map
        Prod.fst).Nodup := by
  induction rows with
  | nil => intro m hm; exact hm
  | cons row rest ih => intro m hm; exact ih _ (dictInsert_names_nodup _ _ _ hm)

theorem buildEmployees_nodup (rows : List (String → String)) :
    ((buildEmployees rows).map Prod.fst).Nodup :=
  build_go_nodup rows [] (by simp)

theorem buildAvail_names (cell : String → String) :
    (buildAvail cell).map Prod.fst = weekdayNames := rfl

theorem build_go_vals (P : EmpInfo → Prop)
    (hP : ∀ row : String → String, P ⟨buildAvail row, 0, []⟩)
    (rows : List (String → String)) :
    ∀ (m : List (String × EmpInfo)), (∀ q ∈ m, P q.2) →
      ∀ q ∈ rows.foldl (fun acc row =>
          dictInsert acc ((row "Name").pyStrip) ⟨buildAvail row, 0, []⟩) m, P q.2 := by
  induction rows with
  | nil => intro m hm; exact hm
  | cons row rest ih =>
      intro m hm
      apply ih
      intro q hq
      rcases mem_dictInsert _ _ _ q hq with h | h
      · exact hm q h
      · rw [h]; exact hP row

theorem buildEmployees_vals (rows : List (String → String)) :
    ∀ q ∈ buildEmployees rows, q.2.hours = 0 ∧ q.2.avail.map Prod.fst = weekdayNames :=
  build_go_vals (fun i => i.hours = 0 ∧ i.avail.map Prod.fst = weekdayNames)
    (fun row => ⟨rfl, buildAvail_names row⟩) rows [] (by simp)

theorem buildEmployees_hours0 (rows : List (String → String)) (n : String) :
    hoursOf (buildEmployees rows) n = 0 := by
  unfold hoursOf
  cases hf : (buildEmployees rows).find? (fun p => p.1 == n) with
  | none => rfl
  | some p =>
      have hp : p ∈ buildEmployees rows := List.mem_of_find?_eq_some hf
      exact (buildEmployees_vals rows p hp).1

/-! ### Availability maps survive the run unchanged -/

theorem bump_avail (emps : List (String × EmpInfo)) (n : String) (h : ℚ)
    (a : String × Option PTime × Option PTime) :
    ∀ q ∈ bumpHours emps n h a, ∃ q0 ∈ emps, q.2.avail = q0.2.avail := by
  induction emps with
  | nil => intro q hq; simp [bumpHours] at hq
  | cons e t ih =>
      obtain ⟨k, info⟩ := e
      intro q hq
      by_cases hk : k = n
      · subst hk
        simp only [bumpHours, eq_self_iff_true, if_true] at hq
        rcases List.mem_cons.mp hq with hq | hq
        · exact ⟨(k, info), List.mem_cons_self _ _, by rw [hq]⟩
        · exact ⟨q, List.mem_cons_of_mem _ hq, rfl⟩
      · simp only [bumpHours, if_neg hk] at hq
        rcases List.mem_cons.mp hq with hq | hq
        · exact ⟨q, hq ▸ List.mem_cons_self _ _, rfl⟩
        · rcases ih q hq with ⟨q0, hq0, he⟩
          exact ⟨q0, List.mem_cons_of_mem _ hq0, he⟩

theorem foldBump_avail (h : ℚ) (a : String × Option PTime × Option PTime) :
    ∀ (chosen : List String) (emps : List (String × EmpInfo)),
      ∀ q ∈ chosen.foldl (fun e n => bumpHours e n h a) emps,
        ∃ q0 ∈ emps, q.2.avail = q0.2.avail := by
  intro chosen
  induction chosen with
  | nil => intro emps q hq; exact ⟨q, hq, rfl⟩
  | cons c t ih =>
      intro emps q hq
      rw [List.foldl_cons] at hq
      rcases ih (bumpHours emps c h a) q hq with ⟨q1, hq1, he1⟩
      rcases bump_avail emps c h a q1 hq1 with ⟨q0, hq0, he0⟩
      exact ⟨q0, hq0, he1.trans he0⟩

theorem runAux_avail (rng : Nat → Nat → Nat) :
    ∀ (shifts : List Shift) (k : Nat) (st : EngineState),
      ∀ q ∈ (runAux rng k st shifts).emps, ∃ q0 ∈ st.emps, q.2.avail = q0.2.avail := by
  intro shifts
  induction shifts with
  | nil => intro k st q hq; exact ⟨q, hq, rfl⟩
  | cons sh t ih =>
      intro k st q hq
      rw [runAux_step] at hq
      rcases ih (k + 1) (stepShift (rng k) st sh) q hq with ⟨q1, hq1, he1⟩
      rw [stepShift_eq] at hq1
      rcases foldBump_avail _ _ _ st.emps q1 hq1 with ⟨q0, hq0, he0⟩
      exact ⟨q0, hq0, he1.trans he0⟩

theorem runEngine_avail (rng : Nat → Nat → Nat) (rows : List (String → String))
    (shifts : List Shift) :
    ∀ q ∈ (runEngine rng rows shifts).emps, q.2.avail.map Prod.fst = weekdayNames := by
  intro q hq
  rcases runAux_avail rng shifts 0 ⟨buildEmployees rows, []⟩ q hq with ⟨q0, hq0, he⟩
  rw [he]
  exact (buildEmployees_vals rows q0 hq0).2

theorem aGet_not_mem (mm : List (String × String)) (k : String)
    (hk : k ∉ mm.map Prod.fst) : aGet mm k = "" := by
  unfold aGet
  cases hf : mm.find? (fun p => p.1 == k) with
  | none => rfl
  | some p =>
      exfalso
      have hp : p ∈ mm := List.mem_of_find?_eq_some hf
      have he := List.find?_some hf
      have he2 : p.1 = k := beq_iff_eq.mp he
      exact hk (he2 ▸ List.mem_map.mpr ⟨p, hp, rfl⟩)

theorem availMatches_unknown_weekday (info : EmpInfo) (wd stype : String)
    (hk : wd ∉ info.avail.map Prod.fst) (hs : stype = "Midday" ∨ stype = "Night") :
    availMatches info wd stype = false := by
  unfold availMatches
  rw [aGet_not_mem _ _ hk]
  rcases hs with h | h <;> subst h <;> decide

/-! ### The shortage branch in detail -/

theorem shortage_keeps_candidates (emps : List (String × EmpInfo)) (wd st : String)
    (r : Nat → Nat) (hnd : (emps.map Prod.fst).Nodup)
    (hshort : (prepCands emps wd st r).length < (rulesFor st).1) :
    ∀ p ∈ emps, availMatches p.2 wd st = true → p.1 ∈ selectChosen emps wd st r := by
  intro p hp hav
  rw [selectChosen_short emps wd st r hshort]
  exact List.mem_append.mpr (Or.inl ((name_mem_cands_iff hnd hp).mpr hav))

/-- Any selected non-candidate carries no more assigned hours than any
unselected employee: the extras are drawn from the least-loaded complement. -/
theorem shortage_extras_minimal (emps : List (String × EmpInfo)) (wd st : String)
    (r : Nat → Nat) (hnd : (emps.map Prod.fst).Nodup)
    (hshort : (prepCands emps wd st r).length < (rulesFor st).1) :
    ∀ x ∈ emps, x.1 ∈ selectChosen emps wd st r → availMatches x.2 wd st = false →
      ∀ y ∈ emps, y.1 ∉ selectChosen emps wd st r → x.2.hours ≤ y.2.hours := by
  intro x hx hxc hxa y hy hyc
  rw [selectChosen_short emps wd st r hshort] at hxc hyc
  set A := (prepCands emps wd st r).map Prod.fst with hA
  set k := (rulesFor st).1 - (prepCands emps wd st r).length with hk
  set S := otherSorted emps A with hS
  have hxA : x.1 ∉ A := by
    intro hmem
    have h2 := (name_mem_cands_iff hnd hx).mp hmem
    rw [hxa] at h2
    exact Bool.false_ne_true h2
  have hxB : x.1 ∈ (S.take k).map Prod.fst := by
    rcases List.mem_append.mp hxc with h | h
    · exact absurd h hxA
    · exact h
  rcases List.mem_map.mp hxB with ⟨px, hpx, hpxe⟩
  have hpxS : px ∈ S := (List.take_sublist _ _).mem hpx
  rcases mem_otherSorted_pair emps A hpxS with ⟨e, he, _, hpe⟩
  have hex : e = x := by
    apply List.inj_on_of_nodup_map hnd he hx
    rw [← hpxe, hpe]
  have hyA : y.1 ∉ A := fun hmem => hyc (List.mem_append.mpr (Or.inl hmem))
  have hyS : (y.1, y.2.hours) ∈ S := by
    rw [hS]
    unfold otherSorted
    rw [(sortByHours_perm _).mem_iff]
    refine List.mem_map.mpr ⟨y, ?_, rfl⟩
    refine List.mem_filter.mpr ⟨hy, ?_⟩
    have hcf : A.contains y.1 = false := by
      cases hc : A.contains y.1
      · rfl
      · exact absurd (List.elem_iff.mp hc) hyA
    rw [hcf]
    rfl
  have hsplit : S = S.take k ++ S.drop k := (List.take_append_drop k S).symm
  have hyD : (y.1, y.2.hours) ∈ S.drop k := by
    rw [hsplit] at hyS
    rcases List.mem_append.mp hyS with h | h
    · exact absurd (hyc (List.mem_append.mpr (Or.inr (List.mem_map.mpr ⟨_, h, rfl⟩))))
        (fun hF => hF)
    · exact h
  have hpw : S.Pairwise (fun a b => a.2 ≤ b.2) := by
    rw [hS]
    unfold otherSorted
    exact sortByHours_sorted _
  have hpw2 : (S.take k ++ S.drop k).Pairwise (fun a b => a.2 ≤ b.2) := by
    rw [← List.take_append_drop k S] at hpw
    exact hpw
  have hfb := (List.pairwise_append.mp hpw2).2.2
  have hle : px.2 ≤ (y.1, y.2.hours).2 := hfb px hpx _ hyD
  have hpx2 : px.2 = x.2.hours := by rw [hpe, hex]
  rw [hpx2] at hle
  exact hle

/-! ### Degenerate selection for unknown shift types -/

theorem selectChosen_zero (emps : List (String × EmpInfo)) (wd st : String)
    (r : Nat → Nat) (hr : rulesFor st = (0, 0)) :
    selectChosen emps wd st r = [] := by
  have h : ¬ (prepCands emps wd st r).length < (rulesFor st).1 := by
    rw [hr]
    exact Nat.not_lt_zero _
  rw [selectChosen_suff emps wd st r h, hr]
  simp

theorem stepShift_nil_chosen (r : Nat → Nat) (st : EngineState) (sh : Shift)
    (h : selectChosen st.emps sh.weekday.pyStrip (pyCapitalize sh.stypeCell.pyStrip) r = []) :
    stepShift r st sh = st := by
  rw [stepShift_eq, h]
  simp

/-! ### First-success structure of the format list -/

theorem tryFormats_append (s : String) (v : PTime) :
    ∀ (fs1 : List (List Dir)) (f : List Dir) (fs2 : List (List Dir)),
      (∀ g ∈ fs1, strptimeTime s g = none) → strptimeTime s f = some v →
      tryFormats s (fs1 ++ f :: fs2) = some v := by
  intro fs1
  induction fs1 with
  | nil =>
      intro f fs2 _ hf
      simp [tryFormats, hf]
  | cons g gs ih =>
      intro f fs2 hall hf
      have hg : strptimeTime s g = none := hall g (List.mem_cons_self _ _)
      simp only [List.cons_append, tryFormats, hg]
      exact ih f fs2 (fun g2 hg2 => hall g2 (List.mem_cons_of_mem _ hg2)) hf

theorem tryFormats_none (s : String) :
    ∀ fs : List (List Dir), (∀ g ∈ fs, strptimeTime s g = none) →
      tryFormats s fs = none := by
  intro fs
  induction fs with
  | nil => intro _; rfl
  | cons g gs ih =>
      intro hall
      have hg : strptimeTime s g = none := hall g (List.mem_cons_self _ _)
      simp only [tryFormats, hg]
      exact ih (fun g2 hg2 => hall g2 (List.mem_cons_of_mem _ hg2))

theorem runEngine_names_nodup (rng : Nat → Nat → Nat) (rows : List (String → String))
    (shifts : List Shift) : ((runEngine rng rows shifts).emps.map Prod.fst).Nodup := by
  show ((runAux rng 0 ⟨buildEmployees rows, []⟩ shifts).emps.map Prod.fst).Nodup
  rw [runAux_names]
  exact buildEmployees_nodup rows

/-! ### The claims -/

unseal Rat.add in
/-- C1.  The claim says the shuffle only reorders equal-hour candidates, so
every chosen candidate's assigned hours are at most every unchosen
candidate's.  The code sorts the candidate list and then shuffles the whole
list (line 110 undoes line 109), so this fails on a reachable state: after one
4-hour Midday shift over six always-available employees A–F, employees A–E
hold 4 hours and F holds 0; at the next Midday shift all six are candidates
(min 3 ≤ 6), and with the Fisher–Yates draws of `rngC1` the engine chooses E
(4 hours) and leaves out F (0 hours). -/
theorem claim1_sort_then_shuffle_divergence :
    rulesFor "Midday" = (3, 5) ∧
    (candidatesFor stAfterOne.emps "Monday" "Midday").map Prod.fst
      = ["A", "B", "C", "D", "E", "F"] ∧
    selectChosen stAfterOne.emps "Monday" "Midday" (rngC1 1) = ["E", "A", "B", "C", "D"] ∧
    hoursOf stAfterOne.emps "E" = 4 ∧
    hoursOf stAfterOne.emps "F" = 0 ∧
    hoursOf stAfterOne.emps "F" < hoursOf stAfterOne.emps "E" ∧
    (runEngine rngC1 rowsSix [shMid, shMid]).recs.map Record.emp
      = ["A", "B", "C", "D", "E", "E", "A", "B", "C", "D"] :=
  ⟨rfl, by decide, by decide, by decide, by decide, by decide, by decide⟩

/-- C2.  Under shortage (fewer candidates than `min`) with at least `min`
employees overall: exactly `min` names are selected, every candidate is
selected, every selected name is an employee, and every selected
non-candidate (chosen in spite of its declared availability) has hours at
most those of every unselected employee. -/
theorem claim2_shortage_selection (emps : List (String × EmpInfo)) (wd st : String)
    (r : Nat → Nat) (hnd : (emps.map Prod.fst).Nodup)
    (hshort : (candidatesFor emps wd st).length < (rulesFor st).1)
    (htot : (rulesFor st).1 ≤ emps.length) :
    (selectChosen emps wd st r).length = (rulesFor st).1 ∧
    (∀ p ∈ emps, availMatches p.2 wd st = true → p.1 ∈ selectChosen emps wd st r) ∧
    (∀ x ∈ selectChosen emps wd st r, x ∈ emps.map Prod.fst) ∧
    (∀ x ∈ emps, x.1 ∈ selectChosen emps wd st r → availMatches x.2 wd st = false →
      ∀ y ∈ emps, y.1 ∉ selectChosen emps wd st r → x.2.hours ≤ y.2.hours) := by
  have hshort2 : (prepCands emps wd st r).length < (rulesFor st).1 := by
    rw [prepCands_len]
    exact hshort
  exact ⟨selectChosen_len_shortage emps wd st r hnd hshort2 htot,
    shortage_keeps_candidates emps wd st r hnd hshort2,
    selectChosen_sub_names emps wd st r,
    shortage_extras_minimal emps wd st r hnd hshort2⟩

unseal Rat.add in
theorem claim2_shortage_selection_witness :
    (selectChosen (buildEmployees rowsMix) "Monday" "Midday" idDraws).length
        = (rulesFor "Midday").1 ∧
    (∀ p ∈ buildEmployees rowsMix, availMatches p.2 "Monday" "Midday" = true →
      p.1 ∈ selectChosen (buildEmployees rowsMix) "Monday" "Midday" idDraws) ∧
    (∀ x ∈ selectChosen (buildEmployees rowsMix) "Monday" "Midday" idDraws,
      x ∈ (buildEmployees rowsMix).map Prod.fst) ∧
    (∀ x ∈ buildEmployees rowsMix,
      x.1 ∈ selectChosen (buildEmployees rowsMix) "Monday" "Midday" idDraws →
      availMatches x.2 "Monday" "Midday" = false →
      ∀ y ∈ buildEmployees rowsMix,
        y.1 ∉ selectChosen (buildEmployees rowsMix) "Monday" "Midday" idDraws →
        x.2.hours ≤ y.2.hours) :=
  claim2_shortage_selection (buildEmployees rowsMix) "Monday" "Midday" idDraws
    (by decide) (by decide) (by decide)

/-- C3.  Processing any shift from any reachable engine state appends exactly
one record per chosen employee; the chosen list has no repeated employee,
is never longer than the policy's `max` for the (capitalized) shift type, and
never longer than the employee roster. -/
theorem claim3_per_shift_records (rng : Nat → Nat → Nat)
    (rows : List (String → String)) (shifts : List Shift) (r : Nat → Nat) (sh : Shift) :
    (stepShift r (runEngine rng rows shifts) sh).recs
      = (runEngine rng rows shifts).recs
        ++ (selectChosen (runEngine rng rows shifts).emps sh.weekday.pyStrip
              (pyCapitalize sh.stypeCell.pyStrip) r).map (recOf sh) ∧
    ((selectChosen (runEngine rng rows shifts).emps sh.weekday.pyStrip
        (pyCapitalize sh.stypeCell.pyStrip) r).map (recOf sh)).map Record.emp
      = selectChosen (runEngine rng rows shifts).emps sh.weekday.pyStrip
          (pyCapitalize sh.stypeCell.pyStrip) r ∧
    (selectChosen (runEngine rng rows shifts).emps sh.weekday.pyStrip
        (pyCapitalize sh.stypeCell.pyStrip) r).Nodup ∧
    (selectChosen (runEngine rng rows shifts).emps sh.weekday.pyStrip
        (pyCapitalize sh.stypeCell.pyStrip) r).length
      ≤ (rulesFor (pyCapitalize sh.stypeCell.pyStrip)).2 ∧
    (selectChosen (runEngine rng rows shifts).emps sh.weekday.pyStrip
        (pyCapitalize sh.stypeCell.pyStrip) r).length
      ≤ (runEngine rng rows shifts).emps.length := by
  refine ⟨stepShift_recs r (runEngine rng rows shifts) sh, ?_,
    selectChosen_nodup _ _ _ r (runEngine_names_nodup rng rows shifts),
    selectChosen_le_max _ _ _ r,
    selectChosen_le_total _ _ _ r (runEngine_names_nodup rng rows shifts)⟩
  have hcomp : (Record.emp ∘ recOf sh) = id := funext fun n => rfl
  rw [List.map_map, hcomp, List.map_id]

/-- C4.  At the end of any run, each employee's `assigned_hours` equals the
sum of the `Hours` fields over the output records naming that employee. -/
theorem claim4_hours_accounting (rng : Nat → Nat → Nat)
    (rows : List (String → String)) (shifts : List Shift) (n : String) :
    hoursOf (runEngine rng rows shifts).emps n
      = sumHoursFor n (runEngine rng rows shifts).recs := by
  have h := runAux_hours rng shifts 0 ⟨buildEmployees rows, []⟩ n
  have h0 : sumHoursFor n ((⟨buildEmployees rows, []⟩ : EngineState).recs) = 0 := rfl
  have h1 : hoursOf ((⟨buildEmployees rows, []⟩ : EngineState).emps) n = 0 :=
    buildEmployees_hours0 rows n
  rw [h0, h1] at h
  show hoursOf (runAux rng 0 ⟨buildEmployees rows, []⟩ shifts).emps n
    = sumHoursFor n (runAux rng 0 ⟨buildEmployees rows, []⟩ shifts).recs
  linarith [h]

unseal Rat.add in
/-- C5, counterexample.  As stated the claim is false: `pd.to_numeric` only
coerces non-numeric text to NaN (filled with 0.0); a numeric negative Hours
cell such as `-5` passes through, and an employee's `assigned_hours`
decreases below its starting value of 0. -/
theorem claim5_counterexample_negative_hours :
    coerceHours shNeg.hoursCell = -5 ∧
    hoursOf (buildEmployees rowsOne) "A" = 0 ∧
    hoursOf (runEngine idRng rowsOne [shNeg]).emps "A"
      < hoursOf (buildEmployees rowsOne) "A" :=
  ⟨by decide, by decide, by decide⟩

/-- C5, amended.  `assigned_hours` starts at 0.0 for every employee;
non-numeric or missing Hours coerces to 0.0; and the running total is
non-decreasing across a shift-processing step provided that shift's coerced
Hours value is non-negative (negative numeric input is passed through and
violates monotonicity, as the counterexample shows). -/
theorem claim5_amended_monotonicity :
    coerceHours none = 0 ∧
    (∀ (rows : List (String → String)) (n : String),
      hoursOf (buildEmployees rows) n = 0) ∧
    (∀ (r : Nat → Nat) (st : EngineState) (sh : Shift) (n : String),
      0 ≤ coerceHours sh.hoursCell →
      hoursOf st.emps n ≤ hoursOf (stepShift r st sh).emps n) :=
  ⟨rfl, buildEmployees_hours0, fun r st sh n h => stepShift_hours_le r st sh n h⟩

unseal Rat.add in
theorem claim5_amended_monotonicity_witness :
    hoursOf (⟨buildEmployees rowsOne, []⟩ : EngineState).emps "A"
      ≤ hoursOf (stepShift idDraws ⟨buildEmployees rowsOne, []⟩ shMid).emps "A" :=
  claim5_amended_monotonicity.2.2 idDraws ⟨buildEmployees rowsOne, []⟩ shMid "A"
    (by decide)

/-- C6.  A shift whose capitalized type is not a policy key gets
`min = max = 0`, selects nobody, and leaves the engine state untouched
(so zero records are emitted for it), with no error path. -/
theorem claim6_unknown_shift_type (r : Nat → Nat) (st : EngineState) (sh : Shift)
    (h1 : pyCapitalize sh.stypeCell.pyStrip ≠ "Midday")
    (h2 : pyCapitalize sh.stypeCell.pyStrip ≠ "Night") :
    rulesFor (pyCapitalize sh.stypeCell.pyStrip) = (0, 0) ∧
    selectChosen st.emps sh.weekday.pyStrip (pyCapitalize sh.stypeCell.pyStrip) r = [] ∧
    stepShift r st sh = st := by
  have hr := rulesFor_unknown _ h1 h2
  have hsel := selectChosen_zero st.emps sh.weekday.pyStrip _ r hr
  exact ⟨hr, hsel, stepShift_nil_chosen r st sh hsel⟩

theorem claim6_unknown_shift_type_witness :
    rulesFor (pyCapitalize shOver.stypeCell.pyStrip) = (0, 0) ∧
    selectChosen (⟨buildEmployees rowsOne, []⟩ : EngineState).emps
      shOver.weekday.pyStrip (pyCapitalize shOver.stypeCell.pyStrip) idDraws = [] ∧
    stepShift idDraws ⟨buildEmployees rowsOne, []⟩ shOver
      = ⟨buildEmployees rowsOne, []⟩ :=
  claim6_unknown_shift_type idDraws ⟨buildEmployees rowsOne, []⟩ shOver
    (by decide) (by decide)

/-- C7.  Availability classification works on the lowercased stripped text by
substring containment in the fixed precedence midday, night, both, else
unavailable; in particular text containing both "midday" and "night" is
classified Midday. -/
theorem claim7_availability_precedence (raw : String) :
    (containsSub raw.pyStrip.pyLower "midday" = true → classifyAvail raw = "Midday") ∧
    (containsSub raw.pyStrip.pyLower "midday" = false →
      containsSub raw.pyStrip.pyLower "night" = true → classifyAvail raw = "Night") ∧
    (containsSub raw.pyStrip.pyLower "midday" = false →
      containsSub raw.pyStrip.pyLower "night" = false →
      containsSub raw.pyStrip.pyLower "both" = true → classifyAvail raw = "Both") ∧
    (containsSub raw.pyStrip.pyLower "midday" = false →
      containsSub raw.pyStrip.pyLower "night" = false →
      containsSub raw.pyStrip.pyLower "both" = false → classifyAvail raw = "") ∧
    (containsSub raw.pyStrip.pyLower "midday" = true →
      containsSub raw.pyStrip.pyLower "night" = true → classifyAvail raw = "Midday") := by
  refine ⟨fun h1 => ?_, fun h1 h2 => ?_, fun h1 h2 h3 => ?_, fun h1 h2 h3 => ?_,
    fun h1 _ => ?_⟩
  · simp [classifyAvail, h1]
  · simp [classifyAvail, h1, h2]
  · simp [classifyAvail, h1, h2, h3]
  · simp [classifyAvail, h1, h2, h3]
  · simp [classifyAvail, h1]

theorem claim7_availability_precedence_witness :
    classifyAvail " Midday and Night " = "Midday" :=
  (claim7_availability_precedence " Midday and Night ").2.2.2.2 (by decide) (by decide)

/-- C8.  The time normalizer is total by construction (every failing branch is
caught and mapped to the unparsable marker `none`): missing or blank input
returns `none` directly; the strptime formats are tried in their fixed source
order, the first success determines the result, and only if all fail is the
ISO fallback consulted. -/
theorem claim8_parse_time_contract :
    parse_time none = none ∧
    (∀ s : String, s.pyStrip = "" → parse_time (some s) = none) ∧
    (∀ (s : String) (v : PTime) (fs1 fs2 : List (List Dir)) (f : List Dir),
      timeFormats = fs1 ++ f :: fs2 →
      (∀ g ∈ fs1, strptimeTime s.pyStrip g = none) →
      strptimeTime s.pyStrip f = some v →
      ¬ s.pyStrip = "" →
      parse_time (some s) = some v) ∧
    (∀ s : String, ¬ s.pyStrip = "" →
      (∀ g ∈ timeFormats, strptimeTime s.pyStrip g = none) →
      parse_time (some s) = fromisoTime s.pyStrip) := by
  refine ⟨rfl, fun s h => ?_, fun s v fs1 fs2 f heq hall hf hne => ?_,
    fun s hne hall => ?_⟩
  · simp [parse_time, h]
  · have ht : tryFormats s.pyStrip timeFormats = some v := by
      rw [heq]
      exact tryFormats_append s.pyStrip v fs1 f fs2 hall hf
    simp [parse_time, hne, ht]
  · have ht := tryFormats_none s.pyStrip timeFormats hall
    simp [parse_time, hne, ht]

theorem claim8_parse_time_contract_witness :
    parse_time (some "14:30") = some ⟨14, 30, 0, 0⟩ :=
  claim8_parse_time_contract.2.2.1 "14:30" ⟨14, 30, 0, 0⟩
    [fmtIMSp, fmtIMp, fmtIp, fmtHMS] [fmtHMSf] fmtHM rfl (by decide) (by decide)
    (by decide)

/-- C9.  The run is a pure function of the input tables and of the random
draws consumed by the shuffles: two runs over identical inputs with the same
draw streams produce identical states, hence identical record sequences. -/
theorem claim9_fixed_seed_determinism (rng1 rng2 : Nat → Nat → Nat)
    (rows : List (String → String)) (shifts : List Shift)
    (h : ∀ k i, rng1 k i = rng2 k i) :
    runEngine rng1 rows shifts = runEngine rng2 rows shifts := by
  have he : rng1 = rng2 := funext fun k => funext fun i => h k i
  rw [he]

theorem claim9_fixed_seed_determinism_witness :
    runEngine idRng rowsOne [shMid] = runEngine (fun _ i => 0 + i) rowsOne [shMid] :=
  claim9_fixed_seed_determinism idRng (fun _ i => 0 + i) rowsOne [shMid]
    (fun _ i => (Nat.zero_add i).symm)

/-- C10.  A shift whose stripped weekday text is not one of the seven
canonical weekday keys has an empty candidate set, so for a known shift type
(positive `min`) the whole minimum headcount comes from the least-loaded
employees via the shortage fallback, with declared availability ignored. -/
theorem claim10_unknown_weekday_fallback (rng : Nat → Nat → Nat)
    (rows : List (String → String)) (shifts : List Shift) (wd stype : String)
    (r : Nat → Nat) (hwd : wd ∉ weekdayNames) (hmin : 0 < (rulesFor stype).1) :
    candidatesFor (runEngine rng rows shifts).emps wd stype = [] ∧
    selectChosen (runEngine rng rows shifts).emps wd stype r
      = ((sortByHours ((runEngine rng rows shifts).emps.map
          (fun p => (p.1, p.2.hours)))).take (rulesFor stype).1).map Prod.fst := by
  have hs := rulesFor_pos stype hmin
  have hfil : (runEngine rng rows shifts).emps.filter
      (fun p => availMatches p.2 wd stype) = [] := by
    rw [List.filter_eq_nil_iff]
    intro p hp
    have hav := runEngine_avail rng rows shifts p hp
    have hm : availMatches p.2 wd stype = false :=
      availMatches_unknown_weekday p.2 wd stype (by rw [hav]; exact hwd) hs
    simp [hm]
  have hcand : candidatesFor (runEngine rng rows shifts).emps wd stype = [] := by
    unfold candidatesFor
    rw [hfil]
    rfl
  refine ⟨hcand, ?_⟩
  have hlen0 : (prepCands (runEngine rng rows shifts).emps wd stype r).length = 0 := by
    rw [prepCands_len, hcand]
    rfl
  have hnil : prepCands (runEngine rng rows shifts).emps wd stype r = [] :=
    List.length_eq_zero.mp hlen0
  have hshort : (prepCands (runEngine rng rows shifts).emps wd stype r).length
      < (rulesFor stype).1 := by
    rw [hlen0]
    exact hmin
  rw [selectChosen_short _ _ _ r hshort, hnil]
  simp only [List.map_nil, List.nil_append, List.length_nil, Nat.sub_zero]
  unfold otherSorted
  have hfil2 : (runEngine rng rows shifts).emps.filter
      (fun p => !(([] : List String).contains p.1)) = (runEngine rng rows shifts).emps :=
    List.filter_eq_self.mpr (fun a _ => rfl)
  rw [hfil2]

unseal Rat.add in
theorem claim10_unknown_weekday_fallback_witness :
    candidatesFor (runEngine idRng rowsOne []).emps "Funday" "Midday" = [] ∧
    selectChosen (runEngine idRng rowsOne []).emps "Funday" "Midday" idDraws
      = ((sortByHours ((runEngine idRng rowsOne []).emps.map
          (fun p => (p.1, p.2.hours)))).take (rulesFor "Midday").1).map Prod.fst :=
  claim10_unknown_weekday_fallback idRng rowsOne [] "Funday" "Midday" idDraws
    (by decide) (by decide)

end Sched
